import Mathlib

/-!
A verification development for the cross-platform thread pool
(`src/threadpool.c`, `src/platform.c`).

The task queue of `threadpool.c` is a singly linked list of heap-allocated
nodes addressed by `front`/`rear` pointers.  We embed it with an explicit
arena: memory is a list of `Option` node cells indexed by address
(`none` models a freed cell), and pointers are `Option Nat` (`none` is the
null pointer).  Allocation appends a cell at the next fresh address, which
mirrors `malloc` closely enough for these proofs: every allocation returns
a previously unused address.

`stderr` diagnostics (`fprintf`) are modelled as a list of strings returned
alongside the state.  The mutex and condition variable carry no data; they
reappear in the interleaved system model further down, where the lock is an
`Option` thread id and condition-variable waits are modelled with wakeups
that are always enabled (a sound over-approximation, since POSIX and Win32
condition variables permit spurious wakeups).
-/

namespace ThreadPool

/-- `task_node_t`: one queued task — the task function pointer, its opaque
argument, and the address of the next node (`none` = `NULL`).  The pool never
inspects or applies the function, so it is opaque data of type `α`, and the
argument is opaque data of type `β`. -/
structure TaskNode (α β : Type) where
  func : α
  arg  : β
  next : Option Nat
deriving DecidableEq, Repr

/-- The data part of `task_queue_t`: the arena of allocated nodes plus the
`front` and `rear` pointers.  The mutex and condition variable of the C
struct carry no data and are modelled only in the system model below. -/
structure TaskQueue (α β : Type) where
  heap  : List (Option (TaskNode α β))
  front : Option Nat
  rear  : Option Nat
deriving DecidableEq, Repr

/-- `queue_init`: `q->front = q->rear = NULL` over a fresh arena. -/
def queue_init {α β : Type} : TaskQueue α β :=
  { heap := [], front := none, rear := none }

/-- The diagnostic `queue_push` writes to `stderr` when `malloc` fails. -/
def pushFailMsg : String := "queue_push: failed to allocate task_node"

/-- Store a new `next` field into the node at address `r` (the C statement
`q->rear->next = node`).  If `r` is dangling the C program would have
undefined behaviour; the model leaves the heap unchanged there. -/
def setNext {α β : Type} (heap : List (Option (TaskNode α β))) (r : Nat)
    (nxt : Option Nat) : List (Option (TaskNode α β)) :=
  match heap[r]? with
  | some (some n) => heap.set r (some { n with next := nxt })
  | _ => heap

/-- `queue_push`: allocate a node (`allocOk` is the `malloc` oracle; on
failure emit the diagnostic and return with the queue untouched), fill in
`func`, `arg`, `next = NULL`, then under the lock either make it the sole
node (`front = rear = node`) when `rear` is null, or link it after `rear`.
The condition-variable signal carries no data and is modelled in the system
model.  Returns the new queue and the diagnostics emitted. -/
def queue_push {α β : Type} (q : TaskQueue α β) (func : α) (arg : β)
    (allocOk : Bool) : TaskQueue α β × List String :=
  if !allocOk then (q, [pushFailMsg])
  else
    let addr := q.heap.length
    let node : TaskNode α β := { func := func, arg := arg, next := none }
    let heap1 := q.heap ++ [some node]
    match q.rear with
    | none => ({ heap := heap1, front := some addr, rear := some addr }, [])
    | some r => ({ heap := setNext heap1 r (some addr),
                   front := q.front, rear := some addr }, [])

/-- `queue_pop`: return `NULL` on an empty queue, otherwise detach and
return the `front` node (with its address; the node is not freed — the
caller owns it), advancing `front` and clearing `rear` when the last node
was removed.  A dangling `front` would be undefined behaviour in C; the
model returns the queue unchanged there. -/
def queue_pop {α β : Type} (q : TaskQueue α β) :
    Option (Nat × TaskNode α β) × TaskQueue α β :=
  match q.front with
  | none => (none, q)
  | some f =>
    match q.heap[f]? with
    | some (some node) =>
        (some (f, node),
         { q with front := node.next,
                  rear := if node.next = none then none else q.rear })
    | _ => (none, q)

/-- The drain loop of `queue_destroy`:
`while (q->front) { temp = q->front; q->front = q->front->next; free(temp); }`.
`fuel` bounds the traversal (the C loop terminates exactly on well-formed,
acyclic chains, where the bound `heap.length` always suffices).  Returns the
heap after the frees, the final `front` pointer, and the addresses freed in
order. -/
def destroyLoop {α β : Type} (heap : List (Option (TaskNode α β)))
    (front : Option Nat) (fuel : Nat) :
    List (Option (TaskNode α β)) × Option Nat × List Nat :=
  match fuel, front with
  | 0, fr => (heap, fr, [])
  | _ + 1, none => (heap, none, [])
  | fuel + 1, some f =>
    match heap[f]? with
    | some (some node) =>
        let res := destroyLoop (heap.set f none) node.next fuel
        (res.1, res.2.1, f :: res.2.2)
    | _ => (heap, some f, [])

/-- `queue_destroy`: free every node still reachable from `front`, then
`q->rear = NULL`.  (The mutex/condition destruction carries no data.)
Returns the drained queue and the list of freed node addresses.  No task
function is ever invoked here — the return type carries no executions, and
the system model's destroy step below leaves the execution log unchanged. -/
def queue_destroy {α β : Type} (q : TaskQueue α β) :
    TaskQueue α β × List Nat :=
  let res := destroyLoop q.heap q.front q.heap.length
  ({ heap := res.1, front := res.2.1, rear := none }, res.2.2)

/-- The linked-list chain predicate: `Chain heap cur addrs` says that
starting from pointer `cur` and following `next` fields, one traverses
exactly the live nodes at `addrs` and ends at the null pointer.  This is
the shape every reachable queue has. -/
inductive Chain {α β : Type} (heap : List (Option (TaskNode α β))) :
    Option Nat → List Nat → Prop
  | nil : Chain heap none []
  | cons {a : Nat} {node : TaskNode α β} {as : List Nat} :
      heap[a]? = some (some node) → Chain heap node.next as →
      Chain heap (some a) (a :: as)

/-- The task (function, argument) stored at address `a`, if a live node is
there. -/
def taskAt {α β : Type} (heap : List (Option (TaskNode α β))) (a : Nat) :
    Option (α × β) :=
  match heap[a]? with
  | some (some n) => some (n.func, n.arg)
  | _ => none

/-- The tasks stored along a list of addresses, in order. -/
def tasksOf {α β : Type} (heap : List (Option (TaskNode α β)))
    (as : List Nat) : List (α × β) :=
  as.filterMap (taskAt heap)

/-- Abstraction relation: queue state `q` represents the task sequence
`ts` — its front chain is well formed, `rear` points at the chain's last
node (null when empty), and the chain's tasks read `ts` in order. -/
def Abs {α β : Type} (q : TaskQueue α β) (ts : List (α × β)) : Prop :=
  ∃ as, Chain q.heap q.front as ∧ q.rear = as.getLast? ∧
    tasksOf q.heap as = ts

/-- The null-pointer invariant of the spec: `front == NULL` iff
`rear == NULL`. -/
def NullInv {α β : Type} (q : TaskQueue α β) : Prop :=
  q.front = none ↔ q.rear = none

/-- Push a whole list of tasks in order (each with a successful
allocation). -/
def pushAll {α β : Type} (q : TaskQueue α β) (ts : List (α × β)) :
    TaskQueue α β :=
  ts.foldl (fun q t => (queue_push q t.1 t.2 true).1) q

/-- Pop repeatedly (up to `fuel` times), collecting the tasks returned, and
stopping at the first empty pop — the observation sequence of successive
`queue_pop` calls. -/
def popList {α β : Type} (q : TaskQueue α β) : Nat → List (α × β)
  | 0 => []
  | fuel + 1 =>
    match queue_pop q with
    | (some (_, node), q') => (node.func, node.arg) :: popList q' fuel
    | (none, _) => []

/-! ### Sequential pool model

`thread_pool_t` as seen by a single caller thread: `thread_pool_init`,
`thread_pool_add_task` and `thread_pool_shutdown` are straight-line code
apart from the join loop, so they embed as plain state transformers.  The
thread-handle array becomes `threads : Option (List Bool)` — `none` is the
null array, and each slot records whether `platform_thread_create`
succeeded for it (`false` marks a slot whose handle was never written and
holds indeterminate memory).  The worker interleaving lives in the system
model below. -/

structure SeqPool (α β : Type) where
  numThreads  : Nat
  threads     : Option (List Bool)
  keepRunning : Bool
  queue       : TaskQueue α β
deriving DecidableEq, Repr

/-- A pool object before `thread_pool_init` touches it. -/
def emptyPool {α β : Type} : SeqPool α β :=
  { numThreads := 0, threads := none, keepRunning := false,
    queue := queue_init }

/-- `thread_pool_init`: store `num_threads`, allocate the handle array
(`allocOk` is the `malloc` oracle; on failure return early with
`threads = NULL`, leaving the queue and flag untouched), initialize the
queue, set `keep_running = 1`, then create the workers; `createOk i` tells
whether `platform_thread_create` succeeds for slot `i` — on failure the
code only logs and continues, leaving slot `i`'s handle unwritten. -/
def thread_pool_init {α β : Type} (pool : SeqPool α β) (numThreads : Nat)
    (allocOk : Bool) (createOk : Nat → Bool) : SeqPool α β :=
  if !allocOk then { pool with numThreads := numThreads, threads := none }
  else
    { pool with
        numThreads := numThreads,
        threads := some ((List.range numThreads).map createOk),
        queue := queue_init,
        keepRunning := true }

/-- `thread_pool_add_task`: delegate to `queue_push` unconditionally — the
`keep_running` flag is never consulted.  (The `!pool` null guard applies to
a null pool pointer; a `SeqPool` value models a non-null pool.) -/
def thread_pool_add_task {α β : Type} (pool : SeqPool α β) (func : α)
    (arg : β) (allocOk : Bool) : SeqPool α β :=
  { pool with queue := (queue_push pool.queue func arg allocOk).1 }

/-- `thread_pool_shutdown`, sequential view: return immediately on a null
`threads` array; otherwise clear `keep_running`, broadcast (no data), join
`pool->threads[i]` for every `i < pool->num_threads` — the loop bound is the
stored count, not the number of threads that actually started — then free
the array, zero the count, and destroy the queue.  Returns the new pool and
the join-attempt list: entry `i` is the started-flag of the slot whose
handle was passed to `platform_thread_join` (a `false` entry is a join on a
handle that was never written). -/
def thread_pool_shutdown {α β : Type} (pool : SeqPool α β) :
    SeqPool α β × List Bool :=
  match pool.threads with
  | none => (pool, [])
  | some slots =>
      ({ pool with
           keepRunning := false,
           threads := none,
           numThreads := 0,
           queue := (queue_destroy pool.queue).1 },
       (List.range pool.numThreads).map (fun i => slots.getD i false))

/-- Number of worker threads that actually started. -/
def startedCount {α β : Type} (pool : SeqPool α β) : Nat :=
  match pool.threads with
  | none => 0
  | some slots => slots.count true

/-! ### Interleaved system model

`worker_thread`, `thread_pool_shutdown` and one concurrent producer
(`thread_pool_add_task`) as a step relation.  Each thread is a program
counter over the statements of its C function; shared state is the queue,
the `keep_running` flag, the queue mutex (an `Option` of the holding thread
id) and an execution log appended to when a worker runs a task body.
Condition-variable wakeups are always enabled for a waiting worker (both
target platforms permit spurious wakeups, and `cond_wait` reacquires the
mutex before returning), so `signal`/`broadcast` need no extra state. -/

/-- Thread identifiers: the shutdown caller, one producer, and workers. -/
inductive Tid
  | sd
  | prod
  | wk (i : Nat)
deriving DecidableEq, Repr

/-- Program counter of `worker_thread`:
`outer` = about to test `while (pool->keep_running)`;
`lockAcq` = acquiring the queue mutex;
`inner` = holding the mutex, testing `front == NULL && keep_running`;
`waiting` = blocked in `platform_cond_wait` (mutex released);
`woke` = returned from the wait (mutex reacquired), testing
`if (!pool->keep_running)`;
`popped t` = after `queue_pop`, still holding the mutex;
`run t` = mutex released, about to run and free the task if non-null;
`exited` = returned. -/
inductive WorkerPc (α β : Type)
  | outer
  | lockAcq
  | inner
  | waiting
  | woke
  | popped (t : Option (Nat × TaskNode α β))
  | run (t : Option (Nat × TaskNode α β))
  | exited
deriving DecidableEq, Repr

/-- Program counter of `thread_pool_shutdown`: clear the flag, lock,
broadcast, unlock, join workers `0..n-1` in order (each join blocks until
that worker has exited), free the handle array, destroy the queue,
return. -/
inductive SdPc
  | setFlag
  | lockq
  | bcast
  | unlockq
  | joinLoop (i : Nat)
  | freeT
  | destroyq
  | done
deriving DecidableEq, Repr

/-- Program counter of one producer calling `thread_pool_add_task` once:
allocate-and-lock, link the node and signal, unlock, done. -/
inductive ProdPc
  | idle
  | locked
  | pushed
  | pdone
deriving DecidableEq, Repr

/-- Global state of the interleaved system. -/
structure PoolSys (α β : Type) where
  queue       : TaskQueue α β
  keepRunning : Bool
  lock        : Option Tid
  workers     : List (WorkerPc α β)
  sdPc        : SdPc
  prodPc      : ProdPc
  prodFunc    : α
  prodArg     : β
  executed    : List (α × β)
deriving DecidableEq, Repr

/-- Replace worker `i`'s program counter. -/
def setWk {α β : Type} (s : PoolSys α β) (i : Nat) (pc : WorkerPc α β) :
    PoolSys α β :=
  { s with workers := s.workers.set i pc }

/-- One step of worker `i` (`worker_thread` in `threadpool.c`).  `none`
when the worker is blocked (mutex held elsewhere) or has exited. -/
def stepWk {α β : Type} (s : PoolSys α β) (i : Nat) :
    Option (PoolSys α β) :=
  match s.workers[i]? with
  | none => none
  | some pc =>
    match pc with
    | .outer =>
        some (setWk s i (if s.keepRunning then .lockAcq else .exited))
    | .lockAcq =>
        if s.lock = none then
          some { setWk s i .inner with lock := some (.wk i) }
        else none
    | .inner =>
        if s.lock = some (.wk i) then
          if s.queue.front = none ∧ s.keepRunning then
            some { setWk s i .waiting with lock := none }
          else
            some { setWk s i (.popped (queue_pop s.queue).1) with
                     queue := (queue_pop s.queue).2 }
        else none
    | .waiting =>
        if s.lock = none then
          some { setWk s i .woke with lock := some (.wk i) }
        else none
    | .woke =>
        if s.lock = some (.wk i) then
          if s.keepRunning then some (setWk s i .inner)
          else some { setWk s i .exited with lock := none }
        else none
    | .popped t =>
        if s.lock = some (.wk i) then
          some { setWk s i (.run t) with lock := none }
        else none
    | .run none => some (setWk s i .outer)
    | .run (some (addr, node)) =>
        some { setWk s i .outer with
                 executed := s.executed ++ [(node.func, node.arg)],
                 queue := { s.queue with
                              heap := s.queue.heap.set addr none } }
    | .exited => none

/-- One step of the shutdown caller (`thread_pool_shutdown`). -/
def stepSd {α β : Type} (s : PoolSys α β) : Option (PoolSys α β) :=
  match s.sdPc with
  | .setFlag => some { s with keepRunning := false, sdPc := .lockq }
  | .lockq =>
      if s.lock = none then
        some { s with lock := some .sd, sdPc := .bcast }
      else none
  | .bcast => some { s with sdPc := .unlockq }
  | .unlockq =>
      if s.lock = some .sd then
        some { s with lock := none, sdPc := .joinLoop 0 }
      else none
  | .joinLoop i =>
      if i < s.workers.length then
        match s.workers[i]? with
        | some .exited => some { s with sdPc := .joinLoop (i + 1) }
        | _ => none
      else some { s with sdPc := .freeT }
  | .freeT => some { s with sdPc := .destroyq }
  | .destroyq =>
      some { s with queue := (queue_destroy s.queue).1, sdPc := .done }
  | .done => none

/-- One step of the producer (`thread_pool_add_task` → `queue_push`, with
the successful allocation folded into the lock acquisition — the fresh
node is invisible to every other thread until it is linked). -/
def stepProd {α β : Type} (s : PoolSys α β) : Option (PoolSys α β) :=
  match s.prodPc with
  | .idle =>
      if s.lock = none then
        some { s with lock := some .prod, prodPc := .locked }
      else none
  | .locked =>
      some { s with
               queue := (queue_push s.queue s.prodFunc s.prodArg true).1,
               prodPc := .pushed }
  | .pushed =>
      if s.lock = some .prod then
        some { s with lock := none, prodPc := .pdone }
      else none
  | .pdone => none

/-- One step of thread `t`. -/
def stepTid {α β : Type} (s : PoolSys α β) : Tid → Option (PoolSys α β)
  | .sd => stepSd s
  | .prod => stepProd s
  | .wk i => stepWk s i

/-- Run a schedule: apply the steps of the given threads in order; `none`
if any scheduled thread is blocked or finished at its turn. -/
def run {α β : Type} (s : PoolSys α β) : List Tid → Option (PoolSys α β)
  | [] => some s
  | t :: ts =>
    match stepTid s t with
    | some s' => run s' ts
    | none => none

/-- Initial system state: `n` workers at the top of their loop, the flag
set, the lock free, an empty queue, the shutdown caller about to begin, and
one producer about to submit `(f, a)`. -/
def initSys {α β : Type} (n : Nat) (f : α) (a : β) : PoolSys α β :=
  { queue := queue_init, keepRunning := true, lock := none,
    workers := List.replicate n .outer, sdPc := .setFlag,
    prodPc := .idle, prodFunc := f, prodArg := a, executed := [] }

/-- A schedule refuting never-run-after-shutdown-begins, first part: one
worker passes its outer `keep_running` check, then the shutdown caller
clears the flag.  At this point the flag is down and nothing has been
submitted yet. -/
def c4cexPre : List Tid := [.wk 0, .sd]

/-- Continuation of `c4cexPre`: the producer submits its task (with the
flag already false), and the worker — already past its flag check —
acquires the lock, pops the task and runs it; then everything shuts
down. -/
def c4cexPost : List Tid :=
  [.prod, .prod, .prod, .wk 0, .wk 0, .wk 0, .wk 0, .wk 0,
   .sd, .sd, .sd, .sd, .sd, .sd, .sd]

/-- A schedule on which shutdown completes while a task is still queued:
the flag falls first, the lone worker exits without popping, the producer
then submits, and the shutdown caller joins, frees and reaches the queue
destruction with the task still in the queue. -/
def c4drainPre : List Tid :=
  [.sd, .wk 0, .prod, .prod, .prod, .sd, .sd, .sd, .sd, .sd, .sd]

/-- `c4drainPre` followed by the final destroy step: shutdown returns with
the submitted task never executed. -/
def c4drainTrace : List Tid := c4drainPre ++ [.sd]

/-- The final state of the `c4drainTrace` schedule. -/
def c4final : PoolSys Nat Nat :=
  (run (initSys 1 7 5) c4drainTrace).getD (initSys 1 7 5)

/-- A schedule in which a pool with a single live worker accepts a
submitted task, executes it, and then shuts down cleanly. -/
def c3trace : List Tid :=
  [.prod, .prod, .prod, .wk 0, .wk 0, .wk 0, .wk 0, .wk 0,
   .sd, .wk 0, .sd, .sd, .sd, .sd, .sd, .sd, .sd]

/-- A queue holding exactly one pushed task, used to instantiate the
queue-level theorems at a concrete input. -/
def wq1 : TaskQueue Nat Nat := (queue_push queue_init 1 2 true).1

/-- A concrete system state whose shutdown caller is at the queue-destroy
statement. -/
def c5sys : PoolSys Nat Nat := { initSys 1 7 5 with sdPc := SdPc.destroyq }

/-- The state after the destroy step of `c5sys`. -/
def c5sysAfter : PoolSys Nat Nat := (stepSd c5sys).getD c5sys

/-- All workers below index `i` have exited (what the join loop has
established so far). -/
def JoinedBelow {α β : Type} (s : PoolSys α β) (i : Nat) : Prop :=
  ∀ j, j < i → s.workers[j]? = some .exited

/-- Every worker has exited. -/
def AllExited {α β : Type} (s : PoolSys α β) : Prop :=
  ∀ j, j < s.workers.length → s.workers[j]? = some .exited

/-- Inductive invariant tying the shutdown caller's progress to worker
termination: past join `i`, workers below `i` have exited; once the join
loop is complete, every worker has. -/
def SdInv {α β : Type} (s : PoolSys α β) : Prop :=
  (∀ i, s.sdPc = SdPc.joinLoop i → JoinedBelow s i) ∧
  ((s.sdPc = SdPc.freeT ∨ s.sdPc = SdPc.destroyq ∨ s.sdPc = SdPc.done) →
    AllExited s)

/-! ### Platform sleep (`platform_sleep_ms`, POSIX branch)

`usleep(ms * 1000)` with `ms : unsigned int`: the multiplication is 32-bit
unsigned arithmetic, so the microsecond value handed to the OS is
`ms * 1000 mod 2^32`. -/

/-- `2^32`, the modulus of `unsigned int` arithmetic on both target
platforms. -/
def uintMod : Nat := 4294967296

/-- The microsecond count `platform_sleep_ms` passes to `usleep`:
`ms * 1000` computed in 32-bit unsigned arithmetic. -/
def platform_sleep_us (ms : Nat) : Nat := ms * 1000 % uintMod

/-! ## Chain lemmas -/

/-- A chain from the null pointer is empty. -/
theorem chain_none {α β : Type} {heap : List (Option (TaskNode α β))}
    {as : List Nat} (h : Chain heap none as) : as = [] := by
  cases h; rfl

/-- A chain from a non-null pointer starts at that address. -/
theorem chain_cons_inv {α β : Type} {heap : List (Option (TaskNode α β))}
    {a : Nat} {as : List Nat} (h : Chain heap (some a) as) :
    ∃ node as', as = a :: as' ∧ heap[a]? = some (some node) ∧
      Chain heap node.next as' := by
  cases h with
  | cons ha hrest => exact ⟨_, _, rfl, ha, hrest⟩

/-- Following `next` pointers from a fixed start traverses a unique
address list. -/
theorem chain_det {α β : Type} {heap : List (Option (TaskNode α β))}
    {c : Option Nat} {as bs : List Nat} (h1 : Chain heap c as)
    (h2 : Chain heap c bs) : as = bs := by
  induction h1 generalizing bs with
  | nil => cases h2; rfl
  | cons ha hrest ih =>
      cases h2 with
      | cons hb hrest2 =>
          rw [ha] at hb
          cases hb
          exact congrArg _ (ih hrest2)

/-- Any member of a chain heads a chain of its own (the suffix from it). -/
theorem chain_suffix {α β : Type} {heap : List (Option (TaskNode α β))}
    {x : Nat} {l₂ : List Nat} :
    ∀ {c : Option Nat} (l₁ : List Nat), Chain heap c (l₁ ++ x :: l₂) →
      Chain heap (some x) (x :: l₂) := by
  intro c l₁
  induction l₁ generalizing c with
  | nil =>
      intro h
      cases h with
      | cons ha hrest => exact .cons ha hrest
  | cons y l₁ ih =>
      intro h
      cases h with
      | cons ha hrest => exact ih hrest

/-- Chains never revisit an address. -/
theorem chain_nodup {α β : Type} {heap : List (Option (TaskNode α β))}
    {c : Option Nat} {as : List Nat} (h : Chain heap c as) : as.Nodup := by
  induction h with
  | nil => exact List.nodup_nil
  | cons ha hrest ih =>
      refine List.nodup_cons.mpr ⟨?_, ih⟩
      intro hmem
      obtain ⟨l₁, l₂, rfl⟩ := List.append_of_mem hmem
      have h1 : Chain heap (some _) (_ :: (l₁ ++ _ :: l₂)) := .cons ha hrest
      have h2 := chain_suffix l₁ hrest
      have hlen := congrArg List.length (chain_det h1 h2)
      simp [List.length_append] at hlen
      omega

/-- Every chain member holds a live node. -/
theorem chain_mem_node {α β : Type} {heap : List (Option (TaskNode α β))}
    {c : Option Nat} {as : List Nat} {x : Nat} (h : Chain heap c as)
    (hx : x ∈ as) : ∃ n, heap[x]? = some (some n) := by
  obtain ⟨l₁, l₂, rfl⟩ := List.append_of_mem hx
  obtain ⟨n, _, _, hn, _⟩ := chain_cons_inv (chain_suffix l₁ h)
  exact ⟨n, hn⟩

/-- Every chain member is a valid arena address. -/
theorem chain_mem_lt {α β : Type} {heap : List (Option (TaskNode α β))}
    {c : Option Nat} {as : List Nat} {x : Nat} (h : Chain heap c as)
    (hx : x ∈ as) : x < heap.length := by
  obtain ⟨n, hn⟩ := chain_mem_node h hx
  exact (List.getElem?_eq_some.mp hn).1

/-- Chains only read the heap at their own addresses. -/
theorem chain_heap_congr {α β : Type}
    {heap heap' : List (Option (TaskNode α β))} {c : Option Nat}
    {as : List Nat} (hagree : ∀ x ∈ as, heap'[x]? = heap[x]?)
    (h : Chain heap c as) : Chain heap' c as := by
  induction h with
  | nil => exact .nil
  | cons ha hrest ih =>
      refine .cons ?_ (ih ?_)
      · rw [hagree _ (List.mem_cons_self _ _)]; exact ha
      · intro x hx; exact hagree x (List.mem_cons_of_mem _ hx)

/-- A chain is no longer than the arena (its addresses are distinct and in
range). -/
theorem chain_length_le {α β : Type} {heap : List (Option (TaskNode α β))}
    {c : Option Nat} {as : List Nat} (h : Chain heap c as) :
    as.length ≤ heap.length := by
  classical
  have h1 : as.toFinset ⊆ Finset.range heap.length := by
    intro x hx
    exact Finset.mem_range.mpr (chain_mem_lt h (List.mem_toFinset.mp hx))
  calc as.length = as.toFinset.card :=
        (List.toFinset_card_of_nodup (chain_nodup h)).symm
    _ ≤ (Finset.range heap.length).card := Finset.card_le_card h1
    _ = heap.length := Finset.card_range _

/-- Along a chain, `taskAt` is defined at every address, so `tasksOf`
takes a cons step at the head. -/
theorem tasksOf_chain_cons {α β : Type}
    {heap : List (Option (TaskNode α β))} {a : Nat} {node : TaskNode α β}
    {as : List Nat} (ha : heap[a]? = some (some node)) :
    tasksOf heap (a :: as) = (node.func, node.arg) :: tasksOf heap as := by
  unfold tasksOf
  rw [List.filterMap_cons_some]
  unfold taskAt
  rw [ha]

/-- `tasksOf` only reads `taskAt` on the given addresses. -/
theorem tasksOf_congr {α β : Type}
    {heap heap' : List (Option (TaskNode α β))} {as : List Nat}
    (hagree : ∀ x ∈ as, taskAt heap' x = taskAt heap x) :
    tasksOf heap' as = tasksOf heap as := by
  induction as with
  | nil => rfl
  | cons a as ih =>
      unfold tasksOf
      rw [List.filterMap_cons, List.filterMap_cons,
        hagree _ (List.mem_cons_self _ _)]
      have := ih (fun x hx => hagree x (List.mem_cons_of_mem _ hx))
      unfold tasksOf at this
      rw [this]

/-- A chain lists exactly as many tasks as addresses. -/
theorem tasksOf_chain_length {α β : Type}
    {heap : List (Option (TaskNode α β))} {c : Option Nat} {as : List Nat}
    (h : Chain heap c as) : (tasksOf heap as).length = as.length := by
  induction h with
  | nil => rfl
  | cons ha hrest ih =>
      rw [tasksOf_chain_cons ha, List.length_cons, ih, List.length_cons]

/-- Linking a fresh node after the chain's last element extends the chain
by that node: the heap shape invariant behind `queue_push`'s
`q->rear->next = node; q->rear = node` branch. -/
theorem chain_snoc {α β : Type} {heap : List (Option (TaskNode α β))}
    {node rnode : TaskNode α β} {r : Nat}
    (hr : heap[r]? = some (some rnode)) (hnext : node.next = none)
    {c : Option Nat} {as : List Nat} (hch : Chain heap c as)
    (hlast : as.getLast? = some r) :
    Chain ((heap ++ [some node]).set r
        (some { rnode with next := some heap.length })) c
      (as ++ [heap.length]) := by
  induction hch with
  | nil => simp at hlast
  | @cons a n as' ha hrest ih =>
      by_cases hnil : as' = []
      · subst hnil
        simp only [List.getLast?_singleton, Option.some.injEq] at hlast
        subst hlast
        rw [ha] at hr
        cases hr
        have haLt : a < heap.length := (List.getElem?_eq_some.mp ha).1
        refine @Chain.cons _ _ _ _ { rnode with next := some heap.length } _ ?_ ?_
        · rw [List.getElem?_set_self (by rw [List.length_append]; omega)]
        · show Chain _ (some heap.length) [heap.length]
          refine @Chain.cons _ _ _ _ node _ ?_ ?_
          · have hne : a ≠ heap.length := by omega
            rw [List.getElem?_set_ne hne, List.getElem?_concat_length]
          · rw [hnext]; exact .nil
      · have hlast' : as'.getLast? = some r := by
          cases as' with
          | nil => exact absurd rfl hnil
          | cons b bs => rw [← List.getLast?_cons_cons (a := a)]; exact hlast
        have hrmem : r ∈ as' := by
          obtain ⟨ys, hys⟩ := List.getLast?_eq_some_iff.mp hlast'
          rw [hys]; exact List.mem_append_right _ (List.mem_singleton.mpr rfl)
        have hanotin : a ∉ as' :=
          (List.nodup_cons.mp (chain_nodup (.cons ha hrest))).1
        have hane : a ≠ r := fun h => hanotin (h ▸ hrmem)
        have haLt : a < heap.length := (List.getElem?_eq_some.mp ha).1
        refine .cons ?_ (ih hlast')
        rw [List.getElem?_set_ne (fun h => hane h.symm),
          List.getElem?_append_left haLt]
        exact ha

/-! ## Push and pop against the abstraction relation -/

/-- Equal heap cells give equal task readings. -/
theorem taskAt_eq_of_getElem {α β : Type}
    {heap heap' : List (Option (TaskNode α β))} {x : Nat}
    (h : heap'[x]? = heap[x]?) : taskAt heap' x = taskAt heap x := by
  unfold taskAt
  rw [h]

/-- Reading the task of a known live cell. -/
theorem taskAt_of_cell {α β : Type} {heap : List (Option (TaskNode α β))}
    {x : Nat} {n : TaskNode α β} (h : heap[x]? = some (some n)) :
    taskAt heap x = some (n.func, n.arg) := by
  unfold taskAt
  rw [h]

/-- `queue_push` on an empty-`rear` queue: the fresh node becomes both
`front` and `rear`. -/
theorem push_rear_none {α β : Type} {q : TaskQueue α β} {f : α} {a : β}
    (h : q.rear = none) :
    (queue_push q f a true).1 =
      { heap := q.heap ++ [some { func := f, arg := a, next := none }],
        front := some q.heap.length, rear := some q.heap.length } := by
  simp [queue_push, h]

/-- `queue_push` with a non-null `rear`: link after `rear` and advance
`rear`. -/
theorem push_rear_some {α β : Type} {q : TaskQueue α β} {f : α} {a : β}
    {r : Nat} (h : q.rear = some r) :
    (queue_push q f a true).1 =
      { heap := setNext (q.heap ++ [some { func := f, arg := a, next := none }])
          r (some q.heap.length),
        front := q.front, rear := some q.heap.length } := by
  simp [queue_push, h]

/-- The fresh queue represents the empty task sequence. -/
theorem abs_init {α β : Type} : Abs (queue_init (α := α) (β := β)) [] :=
  ⟨[], .nil, rfl, rfl⟩

/-- A successful `queue_push` appends exactly one task at the end of the
represented sequence. -/
theorem abs_push {α β : Type} {q : TaskQueue α β} {ts : List (α × β)}
    (f : α) (a : β) (h : Abs q ts) :
    Abs (queue_push q f a true).1 (ts ++ [(f, a)]) := by
  obtain ⟨as, hch, hrear, htasks⟩ := h
  cases as with
  | nil =>
      have hrear' : q.rear = none := hrear
      have hts : ts = [] := htasks.symm
      subst hts
      rw [push_rear_none hrear']
      refine ⟨[q.heap.length], ?_, rfl, ?_⟩
      · exact .cons (List.getElem?_concat_length _ _) .nil
      · simp [tasksOf, taskAt, List.getElem?_concat_length]
  | cons x as' =>
      obtain ⟨r, hr⟩ := Option.isSome_iff_exists.mp
        (List.getLast?_isSome.mpr (List.cons_ne_nil x as'))
      rw [hr] at hrear
      have hrmem : r ∈ x :: as' := by
        obtain ⟨ys, hys⟩ := List.getLast?_eq_some_iff.mp hr
        rw [hys]; exact List.mem_append_right _ (List.mem_singleton.mpr rfl)
      obtain ⟨rnode, hrn⟩ := chain_mem_node hch hrmem
      have hrLt : r < q.heap.length := (List.getElem?_eq_some.mp hrn).1
      rw [push_rear_some hrear]
      have hsn : setNext
          (q.heap ++ [some ({ func := f, arg := a, next := none } : TaskNode α β)]) r
          (some q.heap.length) =
          (q.heap ++ [some ({ func := f, arg := a, next := none } : TaskNode α β)]).set r
            (some { rnode with next := some q.heap.length }) := by
        unfold setNext
        rw [List.getElem?_append_left hrLt, hrn]
      rw [hsn]
      refine ⟨(x :: as') ++ [q.heap.length], ?_, ?_, ?_⟩
      · exact chain_snoc hrn rfl hch hr
      · rw [List.getLast?_concat]
      · have hcong : tasksOf ((q.heap ++
            [some ({ func := f, arg := a, next := none } : TaskNode α β)]).set r
              (some { rnode with next := some q.heap.length })) (x :: as') =
            tasksOf q.heap (x :: as') := by
          refine tasksOf_congr ?_
          intro y hy
          by_cases hyr : y = r
          · subst hyr
            rw [taskAt_of_cell (List.getElem?_set_self
                (by rw [List.length_append]; omega)),
              taskAt_of_cell hrn]
          · refine taskAt_eq_of_getElem ?_
            rw [List.getElem?_set_ne (fun h => hyr h.symm),
              List.getElem?_append_left (chain_mem_lt hch hy)]
        have hlast : tasksOf ((q.heap ++
            [some ({ func := f, arg := a, next := none } : TaskNode α β)]).set r
              (some { rnode with next := some q.heap.length }))
            [q.heap.length] = [(f, a)] := by
          have hcell : getElem? ((q.heap ++
              [some ({ func := f, arg := a, next := none } : TaskNode α β)]).set r
                (some { rnode with next := some q.heap.length }))
              q.heap.length =
              some (some ({ func := f, arg := a, next := none } : TaskNode α β)) := by
            rw [List.getElem?_set_ne (by omega), List.getElem?_concat_length]
          simp [tasksOf, taskAt, hcell]
        have happ := List.filterMap_append (x :: as') [q.heap.length]
          (taskAt ((q.heap ++
            [some ({ func := f, arg := a, next := none } : TaskNode α β)]).set r
              (some { rnode with next := some q.heap.length })))
        show List.filterMap _ ((x :: as') ++ [q.heap.length]) = _
        rw [happ]
        show tasksOf _ (x :: as') ++ tasksOf _ [q.heap.length] = _
        rw [hcong, hlast, htasks]

/-- Inversion of a non-trivial chain at an unknown pointer. -/
theorem chain_cons_start {α β : Type} {heap : List (Option (TaskNode α β))}
    {c : Option Nat} {x : Nat} {as : List Nat}
    (h : Chain heap c (x :: as)) :
    ∃ node, c = some x ∧ heap[x]? = some (some node) ∧
      Chain heap node.next as := by
  cases h with
  | cons ha hrest => exact ⟨_, rfl, ha, hrest⟩

/-- A chain from the null pointer is empty, stated for `q.front`. -/
theorem chain_nil_front {α β : Type} {heap : List (Option (TaskNode α β))}
    {c : Option Nat} (h : Chain heap c []) : c = none := by
  cases h; rfl

/-- `queue_pop` on an empty queue returns the null indicator and leaves the
queue untouched. -/
theorem pop_front_none {α β : Type} {q : TaskQueue α β}
    (h : q.front = none) : queue_pop q = (none, q) := by
  simp [queue_pop, h]

/-- `queue_pop` on a well-formed non-empty queue returns the front node,
advances `front` along the chain, clears `rear` exactly when the chain is
exhausted, and leaves the heap untouched. -/
theorem pop_cons {α β : Type} {q : TaskQueue α β} {x : Nat} {as : List Nat}
    (hch : Chain q.heap q.front (x :: as))
    (hrear : q.rear = (x :: as).getLast?) :
    ∃ node, q.heap[x]? = some (some node) ∧
      queue_pop q = (some (x, node),
        { q with front := node.next,
                 rear := if node.next = none then none else q.rear }) ∧
      Chain q.heap node.next as ∧
      (if node.next = none then none else q.rear) = as.getLast? := by
  obtain ⟨node, hfront, hcell, hrest⟩ := chain_cons_start hch
  refine ⟨node, hcell, ?_, hrest, ?_⟩
  · simp [queue_pop, hfront, hcell]
  · cases hnext : node.next with
    | none =>
        rw [hnext] at hrest
        rw [chain_none hrest]
        rfl
    | some y =>
        rw [hnext] at hrest
        cases as with
        | nil => exact absurd (chain_nil_front hrest) (Option.some_ne_none y)
        | cons b bs =>
            rw [if_neg (Option.some_ne_none y), hrear,
              List.getLast?_cons_cons]

/-- Popping a queue that represents `t :: ts` yields a node carrying `t`
and a queue representing `ts`. -/
theorem abs_pop_cons {α β : Type} {q : TaskQueue α β} {t : α × β}
    {ts : List (α × β)} (h : Abs q (t :: ts)) :
    ∃ x node, queue_pop q =
        (some (x, node),
         { q with front := node.next,
                  rear := if node.next = none then none else q.rear }) ∧
      (node.func, node.arg) = t ∧ Abs (queue_pop q).2 ts := by
  obtain ⟨as, hch, hrear, htasks⟩ := h
  cases as with
  | nil => exact absurd htasks.symm (by simp [tasksOf])
  | cons x as' =>
      obtain ⟨node, hcell, hpop, hrest, hrear'⟩ := pop_cons hch hrear
      rw [tasksOf_chain_cons hcell] at htasks
      refine ⟨x, node, hpop, ?_, ?_⟩
      · exact (List.cons.injEq _ _ _ _ ▸ htasks).1
      · refine ⟨as', ?_, ?_, ?_⟩
        · rw [hpop]; exact hrest
        · rw [hpop]; exact hrear'
        · rw [hpop]
          exact (List.cons.injEq _ _ _ _ ▸ htasks).2

/-- One-step unfolding of `popList` at positive fuel. -/
theorem popList_succ {α β : Type} (q : TaskQueue α β) (n : Nat) :
    popList q (n + 1) =
      match queue_pop q with
      | (some (_, node), q') => (node.func, node.arg) :: popList q' n
      | (none, _) => [] := rfl

/-- Successive pops read back exactly the represented task sequence. -/
theorem popList_abs {α β : Type} :
    ∀ {ts : List (α × β)} {q : TaskQueue α β}, Abs q ts →
      popList q ts.length = ts := by
  intro ts
  induction ts with
  | nil => intro q _; rfl
  | cons t ts ih =>
      intro q h
      obtain ⟨x, node, hpop, hval, habs⟩ := abs_pop_cons h
      rw [List.length_cons, popList_succ, hpop]
      show (node.func, node.arg) :: popList _ ts.length = t :: ts
      rw [hpop] at habs
      rw [hval, ih habs]

/-- Pushing a list of tasks appends it to the represented sequence. -/
theorem abs_pushAll {α β : Type} :
    ∀ (us : List (α × β)) {q : TaskQueue α β} {ts : List (α × β)},
      Abs q ts → Abs (pushAll q us) (ts ++ us) := by
  intro us
  induction us with
  | nil => intro q ts h; simpa using h
  | cons u us ih =>
      intro q ts h
      have h2 := ih (abs_push u.1 u.2 h)
      show Abs (List.foldl _ _ (u :: us)) _
      rw [List.foldl_cons, List.append_cons]
      exact h2

/-- The destroy loop under a well-formed chain with sufficient fuel: it
drains to the null `front`, frees exactly the chain's addresses in order,
and touches no other cell. -/
theorem destroyLoop_spec {α β : Type} :
    ∀ {as : List Nat} {heap : List (Option (TaskNode α β))}
      {c : Option Nat} {fuel : Nat}, Chain heap c as → as.length ≤ fuel →
      (destroyLoop heap c fuel).2.1 = none ∧
      (destroyLoop heap c fuel).2.2 = as ∧
      (∀ x ∈ as, getElem? (destroyLoop heap c fuel).1 x = some none) ∧
      (∀ x, x ∉ as → getElem? (destroyLoop heap c fuel).1 x = heap[x]?) := by
  intro as
  induction as with
  | nil =>
      intro heap c fuel hch _
      rw [chain_nil_front hch]
      cases fuel with
      | zero => exact ⟨rfl, rfl, by simp, fun x _ => rfl⟩
      | succ n => exact ⟨rfl, rfl, by simp, fun x _ => rfl⟩
  | cons x as' ih =>
      intro heap c fuel hch hfuel
      obtain ⟨node, hc, hcell, hrest⟩ := chain_cons_start hch
      subst hc
      cases fuel with
      | zero => exact absurd hfuel (by simp)
      | succ fuel =>
          have hxLt : x < heap.length := (List.getElem?_eq_some.mp hcell).1
          have hnotin : x ∉ as' :=
            (List.nodup_cons.mp (chain_nodup hch)).1
          have hrest' : Chain (heap.set x none) node.next as' := by
            refine chain_heap_congr ?_ hrest
            intro y hy
            exact List.getElem?_set_ne (fun h => hnotin (by rw [h]; exact hy))
          have hfuel' : as'.length ≤ fuel := by
            rw [List.length_cons] at hfuel; omega
          obtain ⟨ih1, ih2, ih3, ih4⟩ := ih hrest' hfuel'
          have hstep : destroyLoop heap (some x) (fuel + 1) =
              ((destroyLoop (heap.set x none) node.next fuel).1,
               (destroyLoop (heap.set x none) node.next fuel).2.1,
               x :: (destroyLoop (heap.set x none) node.next fuel).2.2) := by
            show (match heap[x]? with
              | some (some node) =>
                  let res := destroyLoop (heap.set x none) node.next fuel
                  (res.1, res.2.1, x :: res.2.2)
              | _ => (heap, some x, [])) = _
            rw [hcell]
          rw [hstep]
          refine ⟨ih1, by rw [ih2], ?_, ?_⟩
          · intro y hy
            rcases List.mem_cons.mp hy with hy | hy
            · subst hy
              rw [ih4 y hnotin, List.getElem?_set_self hxLt]
            · exact ih3 y hy
          · intro y hy
            have hyx : y ≠ x := fun h => hy (by rw [h]; exact List.mem_cons_self x as')
            have hynot : y ∉ as' := fun h => hy (List.mem_cons_of_mem _ h)
            rw [ih4 y hynot, List.getElem?_set_ne (fun h => hyx h.symm)]

/-! ## System-model lemmas -/

/-- Shape of any worker step: it only rewrites that worker's own program
counter (possibly touching queue, lock and log), never the shutdown
caller's counter, and only a non-exited worker can step. -/
theorem stepWk_shape {α β : Type} {s s' : PoolSys α β} {i : Nat}
    (h : stepWk s i = some s') :
    ∃ pc pc', s.workers[i]? = some pc ∧ pc ≠ WorkerPc.exited ∧
      s'.workers = s.workers.set i pc' ∧ s'.sdPc = s.sdPc := by
  cases hw : s.workers[i]? with
  | none =>
      simp only [stepWk, hw] at h
      exact Option.noConfusion h
  | some pc =>
      cases pc with
      | outer =>
          simp only [stepWk, hw] at h
          cases h
          exact ⟨_, _, rfl, fun hc => WorkerPc.noConfusion hc, rfl, rfl⟩
      | lockAcq =>
          simp only [stepWk, hw] at h
          split at h
          · cases h
            exact ⟨_, _, rfl, fun hc => WorkerPc.noConfusion hc, rfl, rfl⟩
          · exact Option.noConfusion h
      | inner =>
          simp only [stepWk, hw] at h
          split at h
          · split at h
            · cases h
              exact ⟨_, _, rfl, fun hc => WorkerPc.noConfusion hc, rfl, rfl⟩
            · cases h
              exact ⟨_, _, rfl, fun hc => WorkerPc.noConfusion hc, rfl, rfl⟩
          · exact Option.noConfusion h
      | waiting =>
          simp only [stepWk, hw] at h
          split at h
          · cases h
            exact ⟨_, _, rfl, fun hc => WorkerPc.noConfusion hc, rfl, rfl⟩
          · exact Option.noConfusion h
      | woke =>
          simp only [stepWk, hw] at h
          split at h
          · split at h
            · cases h
              exact ⟨_, _, rfl, fun hc => WorkerPc.noConfusion hc, rfl, rfl⟩
            · cases h
              exact ⟨_, _, rfl, fun hc => WorkerPc.noConfusion hc, rfl, rfl⟩
          · exact Option.noConfusion h
      | popped t =>
          simp only [stepWk, hw] at h
          split at h
          · cases h
            exact ⟨_, _, rfl, fun hc => WorkerPc.noConfusion hc, rfl, rfl⟩
          · exact Option.noConfusion h
      | run t =>
          cases t with
          | none =>
              simp only [stepWk, hw] at h
              cases h
              exact ⟨_, _, rfl, fun hc => WorkerPc.noConfusion hc, rfl, rfl⟩
          | some p =>
              obtain ⟨addr, node⟩ := p
              simp only [stepWk, hw] at h
              cases h
              exact ⟨_, _, rfl, fun hc => WorkerPc.noConfusion hc, rfl, rfl⟩
      | exited =>
          simp only [stepWk, hw] at h
          exact Option.noConfusion h

/-- The shutdown caller's steps never touch the workers or the execution
log. -/
theorem stepSd_shape {α β : Type} {s s' : PoolSys α β}
    (h : stepSd s = some s') :
    s'.workers = s.workers ∧ s'.executed = s.executed := by
  cases hpc : s.sdPc with
  | setFlag => simp only [stepSd, hpc] at h; cases h; exact ⟨rfl, rfl⟩
  | lockq =>
      simp only [stepSd, hpc] at h
      split at h
      · cases h; exact ⟨rfl, rfl⟩
      · exact Option.noConfusion h
  | bcast => simp only [stepSd, hpc] at h; cases h; exact ⟨rfl, rfl⟩
  | unlockq =>
      simp only [stepSd, hpc] at h
      split at h
      · cases h; exact ⟨rfl, rfl⟩
      · exact Option.noConfusion h
  | joinLoop i =>
      simp only [stepSd, hpc] at h
      split at h
      · split at h
        · cases h; exact ⟨rfl, rfl⟩
        · exact Option.noConfusion h
      · cases h; exact ⟨rfl, rfl⟩
  | freeT => simp only [stepSd, hpc] at h; cases h; exact ⟨rfl, rfl⟩
  | destroyq => simp only [stepSd, hpc] at h; cases h; exact ⟨rfl, rfl⟩
  | done =>
      simp only [stepSd, hpc] at h
      exact Option.noConfusion h

/-- The producer's steps never touch the workers, the shutdown caller or
the execution log. -/
theorem stepProd_shape {α β : Type} {s s' : PoolSys α β}
    (h : stepProd s = some s') :
    s'.workers = s.workers ∧ s'.executed = s.executed ∧
      s'.sdPc = s.sdPc := by
  cases hpc : s.prodPc with
  | idle =>
      simp only [stepProd, hpc] at h
      split at h
      · cases h; exact ⟨rfl, rfl, rfl⟩
      · exact Option.noConfusion h
  | locked => simp only [stepProd, hpc] at h; cases h; exact ⟨rfl, rfl, rfl⟩
  | pushed =>
      simp only [stepProd, hpc] at h
      split at h
      · cases h; exact ⟨rfl, rfl, rfl⟩
      · exact Option.noConfusion h
  | pdone =>
      simp only [stepProd, hpc] at h
      exact Option.noConfusion h

/-- `AllExited` only depends on the worker array. -/
theorem allExited_congr {α β : Type} {s s' : PoolSys α β}
    (h : s'.workers = s.workers) (hall : AllExited s) : AllExited s' := by
  intro j hj
  rw [h] at hj ⊢
  exact hall j hj

/-- Once every worker has exited, no step changes the execution log, and
the workers stay exited. -/
theorem exec_frozen_step {α β : Type} {s s' : PoolSys α β} {t : Tid}
    (hall : AllExited s) (h : stepTid s t = some s') :
    s'.executed = s.executed ∧ AllExited s' := by
  cases t with
  | sd =>
      obtain ⟨hw, he⟩ := stepSd_shape h
      exact ⟨he, allExited_congr hw hall⟩
  | prod =>
      obtain ⟨hw, he, _⟩ := stepProd_shape h
      exact ⟨he, allExited_congr hw hall⟩
  | wk i =>
      obtain ⟨pc, _, hw, hne, _, _⟩ := stepWk_shape h
      have hi : i < s.workers.length := (List.getElem?_eq_some.mp hw).1
      have hx := hall i hi
      rw [hw] at hx
      exact absurd (Option.some.inj hx) hne

/-- Once every worker has exited, no schedule ever extends the execution
log. -/
theorem run_frozen {α β : Type} :
    ∀ (acts : List Tid) {s s' : PoolSys α β}, AllExited s →
      run s acts = some s' → s'.executed = s.executed := by
  intro acts
  induction acts with
  | nil => intro s s' _ h; cases h; rfl
  | cons t acts ih =>
      intro s s' hall h
      unfold run at h
      cases hstep : stepTid s t with
      | none => rw [hstep] at h; cases h
      | some s1 =>
          rw [hstep] at h
          obtain ⟨he, hall'⟩ := exec_frozen_step hall hstep
          rw [ih hall' h, he]

/-- One step preserves the shutdown/termination invariant. -/
theorem sdInv_step {α β : Type} {s s' : PoolSys α β} {t : Tid}
    (hinv : SdInv s) (h : stepTid s t = some s') : SdInv s' := by
  cases t with
  | prod =>
      obtain ⟨hw, _, hpc⟩ := stepProd_shape h
      refine ⟨?_, ?_⟩
      · intro i hi j hj
        rw [hpc] at hi
        rw [hw]
        exact hinv.1 i hi j hj
      · intro hor
        rw [hpc] at hor
        exact allExited_congr hw (hinv.2 hor)
  | wk i =>
      obtain ⟨pc, pc', hw, hne, hw', hpc⟩ := stepWk_shape h
      refine ⟨?_, ?_⟩
      · intro k hk j hj
        rw [hpc] at hk
        rw [hw']
        have hjx := hinv.1 k hk j hj
        have hji : j ≠ i := by
          intro hji
          subst hji
          rw [hw] at hjx
          exact hne (Option.some.inj hjx)
        rw [List.getElem?_set_ne (fun hc => hji hc.symm)]
        exact hjx
      · intro hor
        rw [hpc] at hor
        have hall := hinv.2 hor
        have hi : i < s.workers.length := (List.getElem?_eq_some.mp hw).1
        have hx := hall i hi
        rw [hw] at hx
        exact absurd (Option.some.inj hx) hne
  | sd =>
      have h' : stepSd s = some s' := h
      cases hpc : s.sdPc with
      | setFlag =>
          simp only [stepSd, hpc] at h'
          cases h'
          exact ⟨fun i hi => SdPc.noConfusion hi,
            fun hor => by rcases hor with hc | hc | hc <;> cases hc⟩
      | lockq =>
          simp only [stepSd, hpc] at h'
          split at h'
          · cases h'
            exact ⟨fun i hi => SdPc.noConfusion hi,
              fun hor => by rcases hor with hc | hc | hc <;> cases hc⟩
          · exact Option.noConfusion h'
      | bcast =>
          simp only [stepSd, hpc] at h'
          cases h'
          exact ⟨fun i hi => SdPc.noConfusion hi,
            fun hor => by rcases hor with hc | hc | hc <;> cases hc⟩
      | unlockq =>
          simp only [stepSd, hpc] at h'
          split at h'
          · cases h'
            refine ⟨?_, fun hor => by rcases hor with hc | hc | hc <;> cases hc⟩
            intro k hk j hj
            have hk0 : k = 0 := by
              cases hk
              rfl
            subst hk0
            exact absurd hj (Nat.not_lt_zero j)
          · exact Option.noConfusion h'
      | joinLoop i =>
          simp only [stepSd, hpc] at h'
          split at h'
          · rename_i hlen
            split at h'
            · rename_i hw
              cases h'
              refine ⟨?_, fun hor => by
                rcases hor with hc | hc | hc <;> cases hc⟩
              intro k hk j hj
              have hk1 : k = i + 1 := by
                cases hk
                rfl
              subst hk1
              rcases Nat.lt_succ_iff_lt_or_eq.mp hj with hj | hj
              · exact hinv.1 i hpc j hj
              · subst hj
                exact hw
            · exact Option.noConfusion h'
          · rename_i hlen
            cases h'
            refine ⟨fun k hk => SdPc.noConfusion hk, fun _ => ?_⟩
            intro j hj
            have hj2 : j < s.workers.length := hj
            exact hinv.1 i hpc j (by omega)
      | freeT =>
          simp only [stepSd, hpc] at h'
          cases h'
          exact ⟨fun k hk => SdPc.noConfusion hk,
            fun _ => hinv.2 (Or.inl hpc)⟩
      | destroyq =>
          simp only [stepSd, hpc] at h'
          cases h'
          refine ⟨fun k hk => SdPc.noConfusion hk, fun _ => ?_⟩
          intro j hj
          exact hinv.2 (Or.inr (Or.inl hpc)) j hj
      | done =>
          simp only [stepSd, hpc] at h'
          exact Option.noConfusion h'

/-- Any schedule preserves the shutdown/termination invariant. -/
theorem run_sdInv {α β : Type} :
    ∀ (acts : List Tid) {s s' : PoolSys α β}, SdInv s →
      run s acts = some s' → SdInv s' := by
  intro acts
  induction acts with
  | nil => intro s s' hinv h; cases h; exact hinv
  | cons t acts ih =>
      intro s s' hinv h
      unfold run at h
      cases hstep : stepTid s t with
      | none => rw [hstep] at h; cases h
      | some s1 => rw [hstep] at h; exact ih (sdInv_step hinv hstep) h

/-! ## Claim theorems -/

/-- C1: FIFO dispatch — for every sequence of tasks pushed to the task
queue (starting from the fresh queue) before any are popped, successive
pops return the tasks in exactly submission order: the i-th pop returns
the function and argument of the i-th push. -/
theorem fifo_dispatch (α β : Type) (ts : List (α × β)) :
    popList (pushAll (queue_init (α := α) (β := β)) ts) ts.length = ts ∧
    ∀ i : Nat,
      (getElem? (popList (pushAll (queue_init (α := α) (β := β)) ts)
        ts.length) i) = ts[i]? := by
  have habs := abs_pushAll ts (abs_init (α := α) (β := β))
  have h1 := popList_abs (by simpa using habs)
  exact ⟨h1, fun i => by rw [h1]⟩

/-- C2: the queue null invariant `front == NULL ↔ rear == NULL` holds
after `queue_init` and is preserved by `queue_push` (either allocation
outcome), `queue_pop`, and `queue_destroy`.  For destroy the hypothesis is
that the front chain is traversable — exactly the condition under which
the C drain loop terminates and a post-state exists at all. -/
theorem queue_null_invariant (α β : Type) :
    NullInv (queue_init (α := α) (β := β)) ∧
    (∀ (q : TaskQueue α β) (f : α) (a : β) (ok : Bool),
      NullInv q → NullInv (queue_push q f a ok).1) ∧
    (∀ q : TaskQueue α β, NullInv q → NullInv (queue_pop q).2) ∧
    (∀ (q : TaskQueue α β) (as : List Nat), Chain q.heap q.front as →
      NullInv (queue_destroy q).1) := by
  refine ⟨Iff.rfl, ?_, ?_, ?_⟩
  · intro q f a ok h
    cases ok with
    | false => exact h
    | true =>
        cases hr : q.rear with
        | none =>
            rw [push_rear_none hr]
            exact ⟨fun hc => Option.noConfusion hc,
              fun hc => Option.noConfusion hc⟩
        | some r =>
            rw [push_rear_some hr]
            refine ⟨fun hf => ?_, fun hc => Option.noConfusion hc⟩
            have h2 := h.mp hf
            rw [hr] at h2
            exact Option.noConfusion h2
  · intro q h
    cases hf : q.front with
    | none =>
        rw [pop_front_none hf]
        exact h
    | some f =>
        cases hcell : q.heap[f]? with
        | none =>
            have hpop : queue_pop q = (none, q) := by
              simp [queue_pop, hf, hcell]
            rw [hpop]
            exact h
        | some onode =>
            cases onode with
            | none =>
                have hpop : queue_pop q = (none, q) := by
                  simp [queue_pop, hf, hcell]
                rw [hpop]
                exact h
            | some node =>
                have hpop : queue_pop q = (some (f, node),
                    { q with
                        front := node.next,
                        rear := if node.next = none then none else q.rear })
                    := by
                  simp [queue_pop, hf, hcell]
                rw [hpop]
                cases hnext : node.next with
                | none => exact ⟨fun _ => rfl, fun _ => rfl⟩
                | some y =>
                    refine ⟨fun hc => Option.noConfusion hc,
                      fun hrn => ?_⟩
                    have h2 := h.mpr hrn
                    rw [hf] at h2
                    exact Option.noConfusion h2
  · intro q as hch
    have h1 := (destroyLoop_spec hch (chain_length_le hch)).1
    exact ⟨fun _ => rfl, fun _ => h1⟩

/-- Witness for C2 at a concrete queue. -/
theorem queue_null_invariant_witness :
    NullInv (queue_init (α := Nat) (β := Nat)) ∧
    NullInv (queue_push (queue_init (α := Nat) (β := Nat)) 1 2 true).1 ∧
    NullInv (queue_pop wq1).2 ∧
    NullInv (queue_destroy wq1).1 := by
  have hch : Chain wq1.heap wq1.front [0] :=
    @Chain.cons Nat Nat wq1.heap 0 { func := 1, arg := 2, next := none } []
      rfl Chain.nil
  refine ⟨(queue_null_invariant Nat Nat).1,
    (queue_null_invariant Nat Nat).2.1 queue_init 1 2 true Iff.rfl,
    (queue_null_invariant Nat Nat).2.2.1 wq1 ?_,
    (queue_null_invariant Nat Nat).2.2.2 wq1 [0] hch⟩
  exact ⟨fun hc => Option.noConfusion hc, fun hc => Option.noConfusion hc⟩

/-- C3 counterexample: request 2 workers but let only worker 0 start.
The join loop still attempts `num_threads = 2` joins, including one on the
slot whose thread never started, so shutdown does not join exactly the
`M = 1` started threads. -/
theorem degraded_join_counterexample :
    (thread_pool_shutdown (thread_pool_init
        (emptyPool (α := Nat) (β := Nat)) 2 true (fun i => i == 0))).2 =
      [true, false] ∧
    startedCount (thread_pool_init
        (emptyPool (α := Nat) (β := Nat)) 2 true (fun i => i == 0)) = 1 ∧
    ¬ ((thread_pool_shutdown (thread_pool_init
          (emptyPool (α := Nat) (β := Nat)) 2 true (fun i => i == 0))).2.length =
        startedCount (thread_pool_init
          (emptyPool (α := Nat) (β := Nat)) 2 true (fun i => i == 0))) ∧
    false ∈ (thread_pool_shutdown (thread_pool_init
        (emptyPool (α := Nat) (β := Nat)) 2 true (fun i => i == 0))).2 :=
  ⟨by decide, by decide, by decide, by decide⟩

/-- C3 (amended): with only some of the `n` requested workers started, the
pool still accepts submitted tasks (push appends to the queue regardless)
and a live worker still executes them; but `thread_pool_shutdown` attempts
to join all `n` recorded handles — the slots whose creation failed
included — rather than exactly the started ones, and clears the handle
array afterwards. -/
theorem degraded_pool_behaviour (α β : Type) (p : SeqPool α β) (n : Nat)
    (createOk : Nat → Bool) :
    ((thread_pool_shutdown (thread_pool_init p n true createOk)).2 =
        (List.range n).map createOk) ∧
    ((thread_pool_shutdown (thread_pool_init p n true createOk)).2.length =
        n) ∧
    ((thread_pool_shutdown (thread_pool_init p n true createOk)).1.threads =
        none) ∧
    (∀ (f : α) (a : β) (ts : List (α × β)),
      Abs (thread_pool_init p n true createOk).queue ts →
      Abs (thread_pool_add_task (thread_pool_init p n true createOk) f a
          true).queue (ts ++ [(f, a)])) ∧
    ((run (initSys 1 (9 : Nat) (9 : Nat)) c3trace).map
        (fun s => (s.executed, s.sdPc)) = some ([(9, 9)], SdPc.done)) := by
  have h1 : (thread_pool_shutdown (thread_pool_init p n true createOk)).2 =
      (List.range n).map createOk := by
    show (List.range n).map
        (fun i => ((List.range n).map createOk).getD i false) =
      (List.range n).map createOk
    refine List.map_congr_left ?_
    intro i hi
    have hi' : i < n := List.mem_range.mp hi
    rw [List.getD_eq_getElem?_getD, List.getElem?_map,
      List.getElem?_range hi']
    rfl
  refine ⟨h1, ?_, rfl, ?_, by decide⟩
  · rw [h1, List.length_map, List.length_range]
  · intro f a ts habs
    exact abs_push f a habs

/-- Witness for C3's amended theorem at a concrete degraded pool. -/
theorem degraded_pool_behaviour_witness :
    Abs (thread_pool_init (emptyPool (α := Nat) (β := Nat)) 2 true
        (fun i => i == 0)).queue [] ∧
    Abs (thread_pool_add_task (thread_pool_init
        (emptyPool (α := Nat) (β := Nat)) 2 true (fun i => i == 0)) 3 4
        true).queue [(3, 4)] :=
  ⟨⟨[], Chain.nil, rfl, rfl⟩,
   (degraded_pool_behaviour Nat Nat emptyPool 2 (fun i => i == 0)).2.2.2.1
     3 4 [] ⟨[], Chain.nil, rfl, rfl⟩⟩

/-- C4 counterexample: with one worker already past its outer
`keep_running` check, the shutdown caller clears the flag; at that point
nothing has been submitted or executed.  The producer then submits its
task — after shutdown has begun — and the worker pops and runs it, after
which shutdown still completes.  So a task submitted after the running
flag is false can be executed. -/
theorem submitted_after_shutdown_executed :
    ((run (initSys 1 (7 : Nat) (5 : Nat)) c4cexPre).map
        (fun s => (s.keepRunning, s.prodPc, s.executed)) =
      some (false, ProdPc.idle, [])) ∧
    ((run (initSys 1 (7 : Nat) (5 : Nat)) (c4cexPre ++ c4cexPost)).map
        (fun s => (s.executed, s.sdPc)) =
      some ([(7, 5)], SdPc.done)) :=
  ⟨by decide, by decide⟩

/-- C4 (amended): a task submitted after shutdown has begun may still be
executed by a worker that had already passed its running-flag check;
however, shutdown can still return even if tasks remain queued (second and
third conjuncts: a schedule reaching the destroy statement with a task
still queued and nothing executed, then completing), and no task body
begins execution after shutdown has returned — once the shutdown caller is
done, no continuation of the schedule changes the execution log. -/
theorem no_exec_after_shutdown_returns :
    (∀ (α β : Type) (s0 : PoolSys α β) (acts acts2 : List Tid)
        (s1 s2 : PoolSys α β),
      s0.sdPc = SdPc.setFlag → run s0 acts = some s1 →
      s1.sdPc = SdPc.done → run s1 acts2 = some s2 →
      s2.executed = s1.executed) ∧
    ((run (initSys 1 (7 : Nat) (5 : Nat)) c4drainPre).map
        (fun s => (s.sdPc, s.queue.front, s.executed)) =
      some (SdPc.destroyq, some 0, [])) ∧
    ((run (initSys 1 (7 : Nat) (5 : Nat)) c4drainTrace).map
        (fun s => (s.sdPc, s.executed)) = some (SdPc.done, [])) := by
  refine ⟨?_, by decide, by decide⟩
  intro α β s0 acts acts2 s1 s2 h0 hrun hdone hrun2
  have hinv0 : SdInv s0 := by
    refine ⟨fun i hi => ?_, fun hor => ?_⟩
    · rw [h0] at hi
      exact SdPc.noConfusion hi
    · rw [h0] at hor
      rcases hor with hc | hc | hc <;> exact SdPc.noConfusion hc
  have hinv1 := run_sdInv acts hinv0 hrun
  have hall : AllExited s1 := hinv1.2 (Or.inr (Or.inr hdone))
  exact run_frozen acts2 hall hrun2

/-- Witness for C4's amended theorem on a concrete completed schedule. -/
theorem no_exec_after_shutdown_returns_witness :
    run (initSys 1 (7 : Nat) (5 : Nat)) c4drainTrace = some c4final ∧
    c4final.sdPc = SdPc.done ∧
    c4final.executed = c4final.executed :=
  ⟨by decide, by decide,
   (no_exec_after_shutdown_returns).1 Nat Nat (initSys 1 7 5) c4drainTrace
     [] c4final c4final rfl (by decide) (by decide) rfl⟩

/-- C5: `queue_destroy` drains the queue without executing anything: after
it, `front` and `rear` are both null, the freed nodes are exactly the ones
that were still chained from `front` (in order), each of their cells is
released, and the destroy step of the system model leaves the execution
log unchanged — no queued task function is invoked. -/
theorem destroy_drains (α β : Type) :
    (∀ (q : TaskQueue α β) (as : List Nat), Chain q.heap q.front as →
      (queue_destroy q).1.front = none ∧
      (queue_destroy q).1.rear = none ∧
      (queue_destroy q).2 = as ∧
      ∀ x ∈ as, getElem? (queue_destroy q).1.heap x = some none) ∧
    (∀ s : PoolSys α β, s.sdPc = SdPc.destroyq →
      ∀ s', stepSd s = some s' → s'.executed = s.executed) := by
  refine ⟨?_, ?_⟩
  · intro q as hch
    obtain ⟨h1, h2, h3, _⟩ := destroyLoop_spec hch (chain_length_le hch)
    exact ⟨h1, rfl, h2, h3⟩
  · intro s hpc s' h
    simp only [stepSd, hpc] at h
    cases h
    rfl

/-- Witness for C5 at a concrete queue and a concrete system state. -/
theorem destroy_drains_witness :
    (queue_destroy wq1).1.front = none ∧
    (queue_destroy wq1).2 = [0] ∧
    c5sysAfter.executed = c5sys.executed := by
  have hch : Chain wq1.heap wq1.front [0] :=
    @Chain.cons Nat Nat wq1.heap 0 { func := 1, arg := 2, next := none } []
      rfl Chain.nil
  refine ⟨((destroy_drains Nat Nat).1 wq1 [0] hch).1,
    ((destroy_drains Nat Nat).1 wq1 [0] hch).2.2.1,
    (destroy_drains Nat Nat).2 c5sys rfl c5sysAfter (by decide)⟩

/-- C6: push failure atomicity — when node allocation fails, `queue_push`
emits the diagnostic and returns with the queue record completely
unchanged (same heap, `front`, `rear`); nothing is retried and no error is
returned to the caller beyond the diagnostic. -/
theorem push_alloc_failure (α β : Type) (q : TaskQueue α β) (f : α)
    (a : β) : queue_push q f a false = (q, [pushFailMsg]) := rfl

/-- C7: `queue_pop` postcondition — on an empty queue it returns the
no-task indicator and leaves the queue unchanged; on a well-formed
non-empty queue it removes and returns the front node (heap untouched),
sets `front` to the node's successor, and clears `rear` to null exactly
when it removed the last node. -/
theorem pop_postcondition (α β : Type) :
    (∀ q : TaskQueue α β, q.front = none → queue_pop q = (none, q)) ∧
    (∀ (q : TaskQueue α β) (x : Nat) (as : List Nat),
      Chain q.heap q.front (x :: as) → q.rear = (x :: as).getLast? →
      ∃ node, q.heap[x]? = some (some node) ∧
        (queue_pop q).1 = some (x, node) ∧
        (queue_pop q).2.heap = q.heap ∧
        (queue_pop q).2.front = node.next ∧
        (queue_pop q).2.rear = as.getLast? ∧
        (as = [] → (queue_pop q).2.rear = none)) := by
  refine ⟨fun q h => pop_front_none h, ?_⟩
  intro q x as hch hrear
  obtain ⟨node, hcell, hpop, _, hr⟩ := pop_cons hch hrear
  refine ⟨node, hcell, ?_, ?_, ?_, ?_, ?_⟩
  · rw [hpop]
  · rw [hpop]
  · rw [hpop]
  · rw [hpop]
    exact hr
  · intro hnil
    subst hnil
    rw [hpop]
    exact hr

/-- Witness for C7 on the empty queue and on a one-task queue. -/
theorem pop_postcondition_witness :
    queue_pop (queue_init (α := Nat) (β := Nat)) = (none, queue_init) ∧
    ∃ node, wq1.heap[0]? = some (some node) ∧
      (queue_pop wq1).1 = some (0, node) ∧
      (queue_pop wq1).2.heap = wq1.heap ∧
      (queue_pop wq1).2.front = node.next ∧
      (queue_pop wq1).2.rear = List.getLast? [] ∧
      ([] = ([] : List Nat) → (queue_pop wq1).2.rear = none) := by
  have hch : Chain wq1.heap wq1.front [0] :=
    @Chain.cons Nat Nat wq1.heap 0 { func := 1, arg := 2, next := none } []
      rfl Chain.nil
  exact ⟨(pop_postcondition Nat Nat).1 queue_init rfl,
    (pop_postcondition Nat Nat).2 wq1 0 [] hch rfl⟩

/-- C8: a second sequential shutdown is a silent no-op — after
`thread_pool_shutdown` on a pool with a live handle array, `threads` is
null and `num_threads` is zero, so a second call returns through the
null-threads guard with the pool unchanged and performs no joins. -/
theorem double_shutdown (α β : Type) (p : SeqPool α β)
    (h : p.threads.isSome = true) :
    (thread_pool_shutdown p).1.threads = none ∧
    (thread_pool_shutdown p).1.numThreads = 0 ∧
    thread_pool_shutdown (thread_pool_shutdown p).1 =
      ((thread_pool_shutdown p).1, []) := by
  obtain ⟨slots, hs⟩ := Option.isSome_iff_exists.mp h
  have hsh : thread_pool_shutdown p =
      ({ p with
           keepRunning := false,
           threads := none,
           numThreads := 0,
           queue := (queue_destroy p.queue).1 },
       (List.range p.numThreads).map (fun i => slots.getD i false)) := by
    unfold thread_pool_shutdown
    rw [hs]
  rw [hsh]
  exact ⟨rfl, rfl, rfl⟩

/-- Witness for C8 at a concrete one-worker pool. -/
theorem double_shutdown_witness :
    ((thread_pool_init (emptyPool (α := Nat) (β := Nat)) 1 true
        (fun _ => true)).threads.isSome = true) ∧
    thread_pool_shutdown (thread_pool_shutdown (thread_pool_init
        (emptyPool (α := Nat) (β := Nat)) 1 true (fun _ => true))).1 =
      ((thread_pool_shutdown (thread_pool_init
          (emptyPool (α := Nat) (β := Nat)) 1 true (fun _ => true))).1,
       []) :=
  ⟨rfl,
   (double_shutdown Nat Nat
     (thread_pool_init emptyPool 1 true (fun _ => true)) rfl).2.2⟩

/-- C9: `thread_pool_add_task` ignores the running flag — for every
(non-null) pool it delegates to `queue_push` unconditionally, its result
does not depend on `keep_running`, and with `keep_running = false` the
task is still appended to the queue rather than rejected or dropped. -/
theorem add_task_ignores_flag (α β : Type) (pool : SeqPool α β) (f : α)
    (a : β) :
    (∀ ok, (thread_pool_add_task pool f a ok).queue =
        (queue_push pool.queue f a ok).1) ∧
    (∀ b, thread_pool_add_task { pool with keepRunning := b } f a true =
        { thread_pool_add_task pool f a true with keepRunning := b }) ∧
    (pool.keepRunning = false → ∀ ts, Abs pool.queue ts →
      Abs (thread_pool_add_task pool f a true).queue (ts ++ [(f, a)])) := by
  refine ⟨fun ok => rfl, fun b => rfl, ?_⟩
  intro _ ts habs
  exact abs_push f a habs

/-- Witness for C9 at a concrete pool whose running flag is down. -/
theorem add_task_ignores_flag_witness :
    ((emptyPool (α := Nat) (β := Nat)).keepRunning = false) ∧
    Abs (thread_pool_add_task (emptyPool (α := Nat) (β := Nat)) 1 2
        true).queue [(1, 2)] :=
  ⟨rfl,
   (add_task_ignores_flag Nat Nat emptyPool 1 2).2.2 rfl []
     ⟨[], Chain.nil, rfl, rfl⟩⟩

/-- C10 counterexample: at `ms = 5000000` the 32-bit product
`ms * 1000` wraps to `705032704`, which is far less than
`1000 * ms = 5000000000`, so the microsecond count is not at least
`1000 * ms` for every `ms`. -/
theorem sleep_us_wraps :
    platform_sleep_us 5000000 = 705032704 ∧
    ¬ 1000 * 5000000 ≤ platform_sleep_us 5000000 :=
  ⟨by decide, by decide⟩

/-- C10 (amended): for every `ms ≤ 4294967` — that is, whenever
`ms * 1000` fits in 32 bits — the microsecond count passed to `usleep` is
exactly `1000 * ms`, so the sleep is for at least the requested duration;
beyond that bound the unsigned multiplication wraps. -/
theorem sleep_us_no_wrap (ms : Nat) (h : ms ≤ 4294967) :
    platform_sleep_us ms = 1000 * ms := by
  unfold platform_sleep_us uintMod
  rw [Nat.mod_eq_of_lt (by omega), Nat.mul_comm]

/-- Witness for C10's amended theorem at `ms = 300`. -/
theorem sleep_us_no_wrap_witness :
    300 ≤ 4294967 ∧ platform_sleep_us 300 = 1000 * 300 :=
  ⟨by decide, sleep_us_no_wrap 300 (by decide)⟩

end ThreadPool
